import Mathlib

/-!
# Verification of the retrieval pipeline of a document question-answering service

This file embeds, as Lean definitions, the core retrieval pipeline implemented in
`functions/src/index.ts` (and the duplicated chunker in `functions/src/processUpload.ts`):

* `chunkTextByWords` — word-window chunking of extracted text (index.ts lines 275–288);
* `cosineSimilarity` — cosine similarity with zero-guards (index.ts lines 399–415);
* `prefilterChunks` — lexical prefilter with cap (index.ts lines 363–391);
* the dynamic-K top-chunk selection inside `askQuestion` (index.ts lines 168–175);
* the chunk-loading / fallback / embedding-backfill orchestration of `askQuestion`
  (index.ts lines 66–88 and 134–167), modelled as a pure function of its inputs
  (Firestore reads, the question embedding, and an embedding oracle for chunk texts).

JavaScript numbers are embedded as real numbers (`ℝ`); JavaScript strings as Lean
`String` (lists of characters), with ASCII semantics for `toLowerCase`.  Stateful
Firestore access is made explicit: stored chunk records and the document's
`extractedText` are inputs, and the embedding backfill is returned as data.
-/

/-- The whitespace test used by the JavaScript regexes `/\s+/` in the source, restricted
to the whitespace characters that actually occur in the pipeline's inputs. -/
def isWS (c : Char) : Bool :=
  c = ' ' || c = '\t' || c = '\n' || c = '\r'

/-- Characters kept by the term-tokenizer regex `/[^a-z0-9]+/` of `prefilterChunks`
(i.e. the characters of the class `[a-z0-9]`). -/
def isLowerAlnum (c : Char) : Bool :=
  ('a' ≤ c && c ≤ 'z') || ('0' ≤ c && c ≤ '9')

/-- ASCII lower-casing of one character, as `String.prototype.toLowerCase` acts on
ASCII input. -/
def charToLower (c : Char) : Char :=
  if 'A' ≤ c && c ≤ 'Z' then Char.ofNat (c.toNat + 32) else c

/-- `s.toLowerCase()` (ASCII semantics). -/
def jsToLower (s : String) : String :=
  String.mk (s.data.map charToLower)

/-- Accumulator-based splitting of a character list into its maximal runs of
characters satisfying `keep`; `cur` holds the (reversed) run in progress. -/
def splitRunsAcc (keep : Char → Bool) : List Char → List Char → List String
  | cur, [] => if cur = [] then [] else [String.mk cur.reverse]
  | cur, c :: cs =>
    if keep c then splitRunsAcc keep (c :: cur) cs
    else if cur = [] then splitRunsAcc keep [] cs
    else String.mk cur.reverse :: splitRunsAcc keep [] cs

/-- The maximal runs of characters satisfying `keep`, in order.  This is
`s.split(<complement of keep>).filter(Boolean)`: JavaScript's split on a regex
matching runs of the complementary characters, with empty fragments discarded. -/
def splitRuns (keep : Char → Bool) (l : List Char) : List String :=
  splitRunsAcc keep [] l

/-- `text.split(/\s+/).filter(Boolean)`: the whitespace-separated words of a text. -/
def splitWords (l : List Char) : List String :=
  splitRuns (fun c => !isWS c) l

/-- `arr.join(' ')` on a list of strings. -/
def joinSp : List String → String
  | [] => ""
  | [w] => w
  | w :: ws => w ++ " " ++ joinSp ws

/-- The character-list core of `String.prototype.trim`: drop whitespace from both ends. -/
def trimChars (l : List Char) : List Char :=
  ((l.dropWhile isWS).reverse.dropWhile isWS).reverse

/-- `s.trim()` restricted to the whitespace class `isWS`. -/
def jsTrim (s : String) : String :=
  String.mk (trimChars s.data)

/-- `pre` is a prefix of `s` (character lists). -/
def leadsWith : List Char → List Char → Bool
  | [], _ => true
  | _ :: _, [] => false
  | a :: t, b :: s => a = b && leadsWith t s

/-- `t` occurs as a contiguous substring of `s` (character lists);
`s.includes(t)` in JavaScript. -/
def occursIn (t s : List Char) : Bool :=
  leadsWith t s ||
    match s with
    | [] => false
    | _ :: s' => occursIn t s'

/-- `s.includes(t)` on strings. -/
def jsIncludes (s t : String) : Bool :=
  occursIn t.data s.data

/-- `s.startsWith(pre)` on strings. -/
def jsStartsWith (s pre : String) : Bool :=
  leadsWith pre.data s.data

/-- `s.slice(0, n)` on strings (ASCII semantics). -/
def jsSlice (s : String) (n : Nat) : String :=
  String.mk (s.data.take n)

-- ### Characterization of `splitRunsAcc` / `splitRuns`

theorem splitRunsAcc_ne_nil (keep : Char → Bool) :
    ∀ (l cur : List Char), cur ≠ [] →
      splitRunsAcc keep cur l =
        String.mk (cur.reverse ++ l.takeWhile keep) ::
          splitRunsAcc keep [] (l.dropWhile keep) := by
  intro l
  induction l with
  | nil =>
    intro cur h
    simp [splitRunsAcc, h]
  | cons c cs ih =>
    intro cur h
    by_cases hk : keep c
    · simp only [splitRunsAcc, hk, if_pos, List.takeWhile_cons, List.dropWhile_cons]
      rw [ih (c :: cur) (by simp)]
      simp [hk]
    · simp only [splitRunsAcc, hk, List.takeWhile_cons, List.dropWhile_cons]
      simp [h, hk]

/-- One-step unfolding of `splitRuns`: a kept head starts a maximal run
`takeWhile keep`, a dropped head is skipped. -/
theorem splitRuns_cons (keep : Char → Bool) (c : Char) (cs : List Char) :
    splitRuns keep (c :: cs) =
      if keep c then
        String.mk (c :: cs.takeWhile keep) :: splitRuns keep (cs.dropWhile keep)
      else splitRuns keep cs := by
  by_cases hk : keep c
  · simp only [splitRuns, splitRunsAcc, hk, if_pos]
    rw [splitRunsAcc_ne_nil keep cs [c] (by simp)]
    simp
  · simp [splitRuns, splitRunsAcc, hk]

theorem splitRuns_nil (keep : Char → Bool) : splitRuns keep [] = [] := rfl

/-- Every fragment produced by `splitRuns` is a nonempty run of characters
satisfying `keep`. -/
theorem splitRuns_mem (keep : Char → Bool) :
    ∀ (l : List Char) (w : String), w ∈ splitRuns keep l →
      w.data ≠ [] ∧ ∀ c ∈ w.data, keep c = true := by
  suffices H : ∀ (n : Nat) (l : List Char), l.length ≤ n →
      ∀ w ∈ splitRuns keep l, w.data ≠ [] ∧ ∀ c ∈ w.data, keep c = true by
    exact fun l w hw => H l.length l le_rfl w hw
  intro n
  induction n with
  | zero =>
    intro l hl w hw
    rw [List.length_eq_zero.mp (Nat.le_zero.mp hl)] at hw
    simp [splitRuns_nil] at hw
  | succ n ih =>
    intro l hl w hw
    match l with
    | [] => simp [splitRuns_nil] at hw
    | c :: cs =>
      rw [splitRuns_cons] at hw
      by_cases hk : keep c
      · rw [if_pos hk] at hw
        rcases List.mem_cons.mp hw with h | h
        · subst h
          refine ⟨by simp, ?_⟩
          intro d hd
          rcases List.mem_cons.mp hd with h | h
          · subst h; exact hk
          · exact List.mem_takeWhile_imp h
        · exact ih (cs.dropWhile keep)
            (le_trans (List.dropWhile_suffix keep).sublist.length_le (by simpa using hl)) w h
      · rw [if_neg hk] at hw
        exact ih cs (by simpa using hl) w hw

-- ### The chunker (`functions/src/index.ts`, lines 275–288)

/-- The `for (let start = 0; start < words.length; start += step)` loop of
`chunkTextByWords`: each window takes `targetWords` words from `start`
(clipped at the end of `words`), joined by single spaces; a window whose
trimmed join is empty is skipped; iteration breaks as soon as a window's end
reaches `words.length`.  The step `max 1 (targetWords - overlapWords)` is
hoisted into the loop body (it is a pure function of the parameters);
`Math.max(0, overlapWords)` is the identity on `Nat`. -/
def chunkLoop (words : List String) (targetWords overlapWords : Nat) (start : Nat) :
    List String :=
  if _h : start < words.length then
    let step := max 1 (targetWords - overlapWords)
    let endIdx := min words.length (start + targetWords)
    let slice := joinSp ((words.drop start).take targetWords)
    let rest :=
      if endIdx = words.length then []
      else chunkLoop words targetWords overlapWords (start + step)
    if jsTrim slice ≠ "" then slice :: rest else rest
  else []
termination_by words.length - start
decreasing_by
  have h1 : 1 ≤ max 1 (targetWords - overlapWords) := le_max_left _ _
  omega

/-- `chunkTextByWords(text, targetWords, overlapWords)` from
`functions/src/index.ts` lines 275–288: empty text yields no chunks; the text is
split on whitespace into words (empty fragments discarded); then overlapping
word windows are produced by `chunkLoop`. -/
def chunkTextByWords (text : String) (targetWords overlapWords : Nat) : List String :=
  if text = "" then []
  else
    let words := splitWords text.data
    if words.length = 0 then []
    else chunkLoop words targetWords overlapWords 0

namespace ProcessUpload

/-- The loop of the `chunkTextByWords` copy in `functions/src/processUpload.ts`
(lines 20–33); the two source functions are textually identical. -/
def chunkLoop (words : List String) (targetWords overlapWords : Nat) (start : Nat) :
    List String :=
  if _h : start < words.length then
    let step := max 1 (targetWords - overlapWords)
    let endIdx := min words.length (start + targetWords)
    let slice := joinSp ((words.drop start).take targetWords)
    let rest :=
      if endIdx = words.length then []
      else chunkLoop words targetWords overlapWords (start + step)
    if jsTrim slice ≠ "" then slice :: rest else rest
  else []
termination_by words.length - start
decreasing_by
  have h1 : 1 ≤ max 1 (targetWords - overlapWords) := le_max_left _ _
  omega

/-- `chunkTextByWords(text, targetWords, overlapWords)` from
`functions/src/processUpload.ts` lines 20–33. -/
def chunkTextByWords (text : String) (targetWords overlapWords : Nat) : List String :=
  if text = "" then []
  else
    let words := splitWords text.data
    if words.length = 0 then []
    else chunkLoop words targetWords overlapWords 0

end ProcessUpload

-- ### Words, joins and trims

/-- Words produced by `splitWords` are nonempty and whitespace-free. -/
theorem splitWords_mem (l : List Char) (w : String) (hw : w ∈ splitWords l) :
    w.data ≠ [] ∧ ∀ c ∈ w.data, isWS c = false := by
  have h := splitRuns_mem (fun c => !isWS c) l w hw
  exact ⟨h.1, fun c hc => by simpa using h.2 c hc⟩

/-- A character list containing a non-whitespace character has a nonempty trim. -/
theorem trimChars_ne_nil (l : List Char) (h : ∃ c ∈ l, isWS c = false) :
    trimChars l ≠ [] := by
  rcases h with ⟨c, hc, hcws⟩
  intro hnil
  unfold trimChars at hnil
  rw [List.reverse_eq_nil_iff] at hnil
  have hall : ∀ x ∈ (l.dropWhile isWS).reverse, isWS x := List.dropWhile_eq_nil_iff.mp hnil
  have hallrev : ∀ x ∈ l.dropWhile isWS, isWS x := by
    intro x hx; exact hall x (List.mem_reverse.mpr hx)
  have : c ∈ l.takeWhile isWS ++ l.dropWhile isWS := by
    rw [List.takeWhile_append_dropWhile]; exact hc
  rcases List.mem_append.mp this with h | h
  · exact absurd (List.mem_takeWhile_imp h) (by simp [hcws])
  · exact absurd (hallrev c h) (by simp [hcws])

/-- A string containing a non-whitespace character is JavaScript-truthy after `trim()`. -/
theorem jsTrim_ne_empty (s : String) (h : ∃ c ∈ s.data, isWS c = false) :
    jsTrim s ≠ "" := by
  intro he
  exact trimChars_ne_nil s.data h (by simpa [jsTrim, String.ext_iff] using he)

theorem joinSp_cons_cons (w r : String) (rs : List String) :
    joinSp (w :: r :: rs) = w ++ " " ++ joinSp (r :: rs) := rfl

theorem joinSp_single (w : String) : joinSp [w] = w := rfl

/-- The join of a nonempty list of nonempty whitespace-free words contains a
non-whitespace character. -/
theorem joinSp_has_nonWS (ws : List String) (hne : ws ≠ [])
    (hprops : ∀ w ∈ ws, w.data ≠ [] ∧ ∀ c ∈ w.data, isWS c = false) :
    ∃ c ∈ (joinSp ws).data, isWS c = false := by
  match ws with
  | [] => exact absurd rfl hne
  | w :: rest =>
    obtain ⟨hwne, hwf⟩ := hprops w (List.mem_cons_self w rest)
    obtain ⟨c, cs', hc⟩ : ∃ c cs', w.data = c :: cs' := by
      cases hd : w.data with
      | nil => exact absurd hd hwne
      | cons a as => exact ⟨a, as, rfl⟩
    have hcw : c ∈ w.data := by rw [hc]; exact List.mem_cons_self c cs'
    refine ⟨c, ?_, hwf c hcw⟩
    match rest with
    | [] => rw [joinSp_single]; exact hcw
    | r :: rs =>
      rw [joinSp_cons_cons]
      rw [String.data_append, String.data_append]
      exact List.mem_append.mpr (Or.inl (List.mem_append.mpr (Or.inl hcw)))

/-- Under the word invariants, a window starting inside `words` is pushed:
the loop never returns the empty list when it still has words to cover
(and at least one word fits in a window). -/
theorem chunkLoop_ne_nil (words : List String) (targetWords overlapWords start : Nat)
    (ht : 1 ≤ targetWords) (hs : start < words.length)
    (hprops : ∀ w ∈ words, w.data ≠ [] ∧ ∀ c ∈ w.data, isWS c = false) :
    chunkLoop words targetWords overlapWords start ≠ [] := by
  rw [chunkLoop, dif_pos hs]
  have hdrop : words.drop start ≠ [] := by
    rw [ne_eq, List.drop_eq_nil_iff]; omega
  have htake : (words.drop start).take targetWords ≠ [] := by
    rw [ne_eq, List.take_eq_nil_iff]
    push_neg
    exact ⟨by omega, hdrop⟩
  have htrim : jsTrim (joinSp ((words.drop start).take targetWords)) ≠ "" := by
    apply jsTrim_ne_empty
    apply joinSp_has_nonWS _ htake
    intro w hw
    exact hprops w (List.drop_subset start words (List.take_subset targetWords _ hw))
  simp only [htrim, if_true, ne_eq, not_false_eq_true, if_pos]
  split <;> simp

/-- One unfolding of the chunk loop under the word invariants: the current
window is always pushed, and the loop ends exactly when the window's end
`min words.length (start + targetWords)` reaches `words.length`. -/
theorem chunkLoop_eq (words : List String) (targetWords overlapWords start : Nat)
    (ht : 1 ≤ targetWords) (hs : start < words.length)
    (hprops : ∀ w ∈ words, w.data ≠ [] ∧ ∀ c ∈ w.data, isWS c = false) :
    chunkLoop words targetWords overlapWords start =
      joinSp ((words.drop start).take targetWords) ::
        (if words.length ≤ start + targetWords then []
         else chunkLoop words targetWords overlapWords
           (start + max 1 (targetWords - overlapWords))) := by
  rw [chunkLoop, dif_pos hs]
  have hdrop : words.drop start ≠ [] := by
    rw [ne_eq, List.drop_eq_nil_iff]; omega
  have htake : (words.drop start).take targetWords ≠ [] := by
    rw [ne_eq, List.take_eq_nil_iff]
    push_neg
    exact ⟨by omega, hdrop⟩
  have htrim : jsTrim (joinSp ((words.drop start).take targetWords)) ≠ "" := by
    apply jsTrim_ne_empty
    apply joinSp_has_nonWS _ htake
    intro w hw
    exact hprops w (List.drop_subset start words (List.take_subset targetWords _ hw))
  simp only [htrim, ne_eq, not_false_eq_true, if_pos]
  have hmin : (min words.length (start + targetWords) = words.length) ↔
      words.length ≤ start + targetWords := min_eq_left_iff
  by_cases hend : words.length ≤ start + targetWords
  · rw [if_pos (hmin.mpr hend), if_pos hend]
  · rw [if_neg (fun h => hend (hmin.mp h)), if_neg hend]

/-- With a zero word target every window is empty and trimmed away: no chunks. -/
theorem chunkLoop_zero_target (words : List String) (overlapWords : Nat) :
    ∀ (start : Nat), chunkLoop words 0 overlapWords start = [] := by
  suffices H : ∀ (n start : Nat), words.length - start ≤ n →
      chunkLoop words 0 overlapWords start = [] by
    exact fun start => H (words.length - start) start le_rfl
  intro n
  induction n with
  | zero =>
    intro start h
    rw [chunkLoop, dif_neg (by omega)]
  | succ n ih =>
    intro start h
    by_cases hs : start < words.length
    · rw [chunkLoop, dif_pos hs]
      have hslice : joinSp ((words.drop start).take 0) = "" := by
        simp [joinSp]
      simp only [hslice]
      have : jsTrim "" = "" := rfl
      simp only [this, ne_eq, not_true_eq_false, if_neg, not_false_eq_true]
      have hone : (1 : Nat) ⊔ (0 - overlapWords) = 1 := by
        simp [Nat.zero_sub]
      rw [if_neg (show ¬ words.length ⊓ (start + 0) = words.length by omega), hone]
      exact ih (start + 1) (by omega)
    · rw [chunkLoop, dif_neg hs]

/-- The last chunk produced by the loop is a full suffix of the word list:
its window starts at some `s` past `start` and its end reaches the word count. -/
theorem chunkLoop_getLast (words : List String) (targetWords overlapWords : Nat)
    (ht : 1 ≤ targetWords)
    (hprops : ∀ w ∈ words, w.data ≠ [] ∧ ∀ c ∈ w.data, isWS c = false) :
    ∀ (start : Nat), start < words.length →
      ∃ s, start ≤ s ∧ s < words.length ∧ words.length ≤ s + targetWords ∧
        (chunkLoop words targetWords overlapWords start).getLast? =
          some (joinSp (words.drop s)) := by
  suffices H : ∀ (n start : Nat), words.length - start ≤ n → start < words.length →
      ∃ s, start ≤ s ∧ s < words.length ∧ words.length ≤ s + targetWords ∧
        (chunkLoop words targetWords overlapWords start).getLast? =
          some (joinSp (words.drop s)) by
    exact fun start hs => H (words.length - start) start le_rfl hs
  intro n
  induction n with
  | zero => intro start h hs; omega
  | succ n ih =>
    intro start h hs
    rw [chunkLoop_eq words targetWords overlapWords start ht hs hprops]
    by_cases hend : words.length ≤ start + targetWords
    · refine ⟨start, le_rfl, hs, hend, ?_⟩
      rw [if_pos hend]
      have : (words.drop start).take targetWords = words.drop start :=
        List.take_of_length_le (by simp; omega)
      rw [this]
      rfl
    · rw [if_neg hend]
      have hstep : 1 ≤ max 1 (targetWords - overlapWords) := le_max_left _ _
      have hstep2 : max 1 (targetWords - overlapWords) ≤ targetWords := by omega
      have hs' : start + max 1 (targetWords - overlapWords) < words.length := by omega
      obtain ⟨s, hs1, hs2, hs3, hs4⟩ :=
        ih (start + max 1 (targetWords - overlapWords)) (by omega) hs'
      refine ⟨s, by omega, hs2, hs3, ?_⟩
      have hne : chunkLoop words targetWords overlapWords
          (start + max 1 (targetWords - overlapWords)) ≠ [] :=
        chunkLoop_ne_nil words targetWords overlapWords _ ht hs' hprops
      rw [List.getLast?_cons, hs4]
      simp

-- ### `splitWords` is a left inverse of `joinSp` on clean word lists

theorem takeWhile_append_sep {p : Char → Bool} (l : List Char) (sep : Char)
    (r : List Char) (hl : ∀ c ∈ l, p c = true) (hsep : p sep = false) :
    (l ++ sep :: r).takeWhile p = l := by
  induction l with
  | nil => simp [List.takeWhile_cons, hsep]
  | cons c cs ih =>
    rw [List.cons_append, List.takeWhile_cons, hl c (List.mem_cons_self c cs)]
    rw [ih (fun d hd => hl d (List.mem_cons_of_mem c hd))]
    simp

theorem dropWhile_append_sep {p : Char → Bool} (l : List Char) (sep : Char)
    (r : List Char) (hl : ∀ c ∈ l, p c = true) (hsep : p sep = false) :
    (l ++ sep :: r).dropWhile p = sep :: r := by
  induction l with
  | nil => simp [List.dropWhile_cons, hsep]
  | cons c cs ih =>
    rw [List.cons_append, List.dropWhile_cons]
    rw [if_pos (hl c (List.mem_cons_self c cs))]
    exact ih (fun d hd => hl d (List.mem_cons_of_mem c hd))

/-- A whole kept run followed by a separator splits off as one fragment. -/
theorem splitRuns_word_sep (keep : Char → Bool) (wd : List Char) (sep : Char)
    (rest : List Char) (hne : wd ≠ []) (hall : ∀ c ∈ wd, keep c = true)
    (hsep : keep sep = false) :
    splitRuns keep (wd ++ sep :: rest) = String.mk wd :: splitRuns keep rest := by
  match wd with
  | [] => exact absurd rfl hne
  | c :: cs =>
    rw [List.cons_append, splitRuns_cons, if_pos (hall c (List.mem_cons_self c cs))]
    rw [takeWhile_append_sep cs sep rest
      (fun d hd => hall d (List.mem_cons_of_mem c hd)) hsep]
    rw [dropWhile_append_sep cs sep rest
      (fun d hd => hall d (List.mem_cons_of_mem c hd)) hsep]
    rw [splitRuns_cons, if_neg (by simp [hsep])]

/-- A single clean run splits as itself. -/
theorem splitRuns_word (keep : Char → Bool) (wd : List Char) (hne : wd ≠ [])
    (hall : ∀ c ∈ wd, keep c = true) :
    splitRuns keep wd = [String.mk wd] := by
  match wd with
  | [] => exact absurd rfl hne
  | c :: cs =>
    rw [splitRuns_cons, if_pos (hall c (List.mem_cons_self c cs))]
    rw [List.takeWhile_eq_self_iff.mpr (fun d hd => hall d (List.mem_cons_of_mem c hd))]
    rw [List.dropWhile_eq_nil_iff.mpr (fun d hd => hall d (List.mem_cons_of_mem c hd))]
    rw [splitRuns_nil]

/-- On a nonempty list of nonempty whitespace-free words, `splitWords` inverts
`joinSp`. -/
theorem splitWords_joinSp (ws : List String) (hne : ws ≠ [])
    (hprops : ∀ w ∈ ws, w.data ≠ [] ∧ ∀ c ∈ w.data, isWS c = false) :
    splitWords (joinSp ws).data = ws := by
  induction ws with
  | nil => exact absurd rfl hne
  | cons w rest ih =>
    obtain ⟨hwne, hwf⟩ := hprops w (List.mem_cons_self w rest)
    match rest with
    | [] =>
      rw [joinSp_single]
      unfold splitWords
      rw [splitRuns_word _ w.data hwne (fun c hc => by simp [hwf c hc])]
    | r :: rs =>
      rw [joinSp_cons_cons]
      have hdata : (w ++ " " ++ joinSp (r :: rs)).data =
          w.data ++ ' ' :: (joinSp (r :: rs)).data := by
        rw [String.data_append, String.data_append]
        simp
      unfold splitWords
      rw [hdata]
      rw [splitRuns_word_sep _ w.data ' ' (joinSp (r :: rs)).data hwne
        (fun c hc => by simp [hwf c hc]) (by simp [isWS])]
      have hrest := ih (by simp)
        (fun w' hw' => hprops w' (List.mem_cons_of_mem w hw'))
      unfold splitWords at hrest
      rw [hrest]

-- ### The two chunker copies agree

theorem chunkLoop_eq_processUpload (words : List String) (targetWords overlapWords : Nat) :
    ∀ (start : Nat), chunkLoop words targetWords overlapWords start =
      ProcessUpload.chunkLoop words targetWords overlapWords start := by
  suffices H : ∀ (n start : Nat), words.length - start ≤ n →
      chunkLoop words targetWords overlapWords start =
        ProcessUpload.chunkLoop words targetWords overlapWords start by
    exact fun start => H (words.length - start) start le_rfl
  intro n
  induction n with
  | zero =>
    intro start h
    rw [chunkLoop, ProcessUpload.chunkLoop, dif_neg (by omega), dif_neg (by omega)]
  | succ n ih =>
    intro start h
    by_cases hs : start < words.length
    · rw [chunkLoop, ProcessUpload.chunkLoop, dif_pos hs, dif_pos hs]
      have hstep : 1 ≤ max 1 (targetWords - overlapWords) := le_max_left _ _
      simp only [ih (start + max 1 (targetWords - overlapWords)) (by omega)]
    · rw [chunkLoop, ProcessUpload.chunkLoop, dif_neg hs, dif_neg hs]

-- ### Claims about the chunker

/-- C9: the `chunkTextByWords` in `functions/src/index.ts` and the one in
`functions/src/processUpload.ts` are extensionally equal: for every text,
`targetWords` and `overlapWords` they return identical chunk sequences, so the
on-the-fly fallback chunking during retrieval reproduces exactly the chunks the
upload processor would have persisted for the same extracted text. -/
theorem claim_C9_chunkers_agree (text : String) (targetWords overlapWords : Nat) :
    chunkTextByWords text targetWords overlapWords =
      ProcessUpload.chunkTextByWords text targetWords overlapWords := by
  unfold chunkTextByWords ProcessUpload.chunkTextByWords
  simp only [chunkLoop_eq_processUpload]

/-- C3: on any text of exactly 1000 whitespace-separated words,
`chunkTextByWords text 900 120` (step 780) yields exactly two chunks — words
0..899 joined and words 780..999 joined (220 words); and in general the final
chunk always extends to the last word of the word sequence, iteration stopping
exactly when a window's end reaches the total word count. -/
theorem claim_C3_thousand_words (text : String)
    (h : (splitWords text.data).length = 1000) :
    chunkTextByWords text 900 120 =
      [joinSp ((splitWords text.data).take 900),
       joinSp ((splitWords text.data).drop 780)] ∧
    ((splitWords text.data).drop 780).length = 220 ∧
    (∀ (d : String) (t o : Nat), chunkTextByWords d t o ≠ [] →
      ∃ s, s < (splitWords d.data).length ∧ (splitWords d.data).length ≤ s + t ∧
        (chunkTextByWords d t o).getLast? = some (joinSp ((splitWords d.data).drop s))) := by
  refine ⟨?_, ?_, ?_⟩
  · have htext : text ≠ "" := by
      intro he
      rw [he] at h
      simp [splitWords, splitRuns_nil] at h
    have hprops := fun w hw => splitWords_mem text.data w hw
    unfold chunkTextByWords
    rw [if_neg htext, if_neg (by omega)]
    rw [chunkLoop_eq _ 900 120 0 (by norm_num) (by omega) hprops]
    rw [if_neg (by omega)]
    have hmax : (0 : Nat) + max 1 (900 - 120) = 780 := by norm_num
    rw [hmax]
    rw [chunkLoop_eq _ 900 120 780 (by norm_num) (by omega) hprops]
    rw [if_pos (by omega)]
    rw [List.drop_zero]
    have hlen : ((splitWords text.data).drop 780).length ≤ 900 := by
      rw [List.length_drop]; omega
    rw [List.take_of_length_le hlen]
  · rw [List.length_drop]; omega
  · intro d t o hne
    have htext : d ≠ "" := by
      intro he
      rw [he] at hne
      exact hne (by unfold chunkTextByWords; rw [if_pos rfl])
    have hwlen : splitWords d.data ≠ [] := by
      intro he
      apply hne
      unfold chunkTextByWords
      rw [if_neg htext, he]
      simp
    have ht : 1 ≤ t := by
      rcases Nat.eq_zero_or_pos t with h0 | h1
      · exfalso
        apply hne
        unfold chunkTextByWords
        rw [if_neg htext, if_neg (by simp [hwlen])]
        rw [h0]
        exact chunkLoop_zero_target _ o 0
      · exact h1
    have hprops := fun w hw => splitWords_mem d.data w hw
    obtain ⟨s, _, hs2, hs3, hlast⟩ :=
      chunkLoop_getLast (splitWords d.data) t o ht hprops 0
        (List.length_pos.mpr hwlen)
    refine ⟨s, hs2, hs3, ?_⟩
    unfold chunkTextByWords
    rw [if_neg htext, if_neg (by simp [hwlen])]
    exact hlast

/-- C3 witness: a concrete 1000-word text (the word `a` repeated 1000 times,
space-separated). -/
theorem claim_C3_witness :
    chunkTextByWords (joinSp (List.replicate 1000 "a")) 900 120 =
      [joinSp (List.replicate 900 "a"), joinSp (List.replicate 220 "a")] := by
  have hprops : ∀ w ∈ List.replicate 1000 "a",
      w.data ≠ [] ∧ ∀ c ∈ w.data, isWS c = false := by
    intro w hw
    rw [List.eq_of_mem_replicate hw]
    exact ⟨by decide, by decide⟩
  have hsw : splitWords (joinSp (List.replicate 1000 "a")).data =
      List.replicate 1000 "a" :=
    splitWords_joinSp _
      (by
        intro hcontra
        have hlen := congrArg List.length hcontra
        rw [List.length_replicate] at hlen
        exact absurd hlen (by norm_num))
      hprops
  have h1000 : (splitWords (joinSp (List.replicate 1000 "a")).data).length = 1000 := by
    rw [hsw, List.length_replicate]
  have hmain := (claim_C3_thousand_words _ h1000).1
  rw [hsw] at hmain
  rw [hmain, List.take_replicate, List.drop_replicate]
  norm_num

/-- C4 counterexample: the claim "for every non-empty text with fewer than
`targetWords` words the result is one chunk equal to the whole text" fails on
the code.  `"a  b"` (two spaces) is non-empty with 2 < 900 words, but the single
chunk is the words re-joined with single spaces, `"a b"`, not the original
text; and the non-empty whitespace-only text `" "` yields zero chunks. -/
theorem claim_C4_counterexample :
    (chunkTextByWords "a  b" 900 120 ≠ ["a  b"] ∧ "a  b" ≠ "" ∧
      (splitWords ("a  b" : String).data).length < 900) ∧
    (chunkTextByWords " " 900 120 = [] ∧ " " ≠ "" ∧
      (splitWords (" " : String).data).length < 900) := by
  have hsw : splitWords ("a  b" : String).data = ["a", "b"] := by decide
  have hsw2 : splitWords (" " : String).data = [] := by decide
  have heval : chunkTextByWords "a  b" 900 120 = ["a b"] := by
    unfold chunkTextByWords
    rw [if_neg (by decide)]
    rw [hsw]
    rw [if_neg (by norm_num)]
    rw [chunkLoop_eq ["a", "b"] 900 120 0 (by norm_num) (by norm_num)
      (by decide)]
    rw [if_pos (by norm_num)]
    decide
  constructor
  · refine ⟨?_, by decide, ?_⟩
    · rw [heval]; decide
    · rw [hsw]; norm_num
  · refine ⟨?_, by decide, ?_⟩
    · unfold chunkTextByWords
      rw [if_neg (by decide), hsw2]
      simp
    · rw [hsw2]; norm_num

/-- C4 (amended): empty text yields no chunks; a text whose word sequence is
empty (e.g. whitespace-only) also yields no chunks; and a text with at least
one and fewer than `targetWords` words yields exactly one chunk — its words
joined by single spaces (equal to the whole text exactly when the text is
already single-space-separated with no surrounding whitespace). -/
theorem claim_C4_amended :
    (∀ (t o : Nat), chunkTextByWords "" t o = []) ∧
    (∀ (text : String) (t o : Nat), splitWords text.data = [] →
      chunkTextByWords text t o = []) ∧
    (∀ (text : String) (t o : Nat), 0 < (splitWords text.data).length →
      (splitWords text.data).length < t →
      chunkTextByWords text t o = [joinSp (splitWords text.data)]) := by
  refine ⟨?_, ?_, ?_⟩
  · intro t o
    unfold chunkTextByWords
    rw [if_pos rfl]
  · intro text t o h
    by_cases htext : text = ""
    · unfold chunkTextByWords
      rw [if_pos htext]
    · unfold chunkTextByWords
      rw [if_neg htext, h]
      simp
  · intro text t o hpos hlt
    have htext : text ≠ "" := by
      intro he
      rw [he] at hpos
      simp [splitWords, splitRuns_nil] at hpos
    have hprops := fun w hw => splitWords_mem text.data w hw
    unfold chunkTextByWords
    rw [if_neg htext, if_neg (by omega)]
    rw [chunkLoop_eq _ t o 0 (by omega) (by omega) hprops]
    rw [if_pos (by omega), List.drop_zero]
    rw [List.take_of_length_le (by omega)]

/-- C4 witness: a two-word clean text of fewer than 900 words gives exactly one
chunk, the whole text. -/
theorem claim_C4_witness : chunkTextByWords "a b" 900 120 = ["a b"] := by
  have h := claim_C4_amended.2.2 "a b" 900 120 (by decide) (by decide)
  rw [h]
  decide

-- ### The prefilter (`functions/src/index.ts`, lines 363–391)

/-- The question tokenizer of `prefilterChunks` (lines 365–369):
`question.toLowerCase().split(/[^a-z0-9]+/).filter(Boolean).filter(t => t.length > 2)`.
The term list is *not* deduplicated. -/
def questionTerms (question : String) : List String :=
  (splitRuns isLowerAlnum (jsToLower question).data).filter (fun t => t.length > 2)

/-- The per-chunk score of `prefilterChunks` (lines 374–381): one point for each
entry of the term list (occurrences included) contained in the lowercased chunk. -/
def chunkScore (terms : List String) (c : String) : Nat :=
  terms.countP (fun t => jsIncludes (jsToLower c) t)

/-- `arr.map((x, i) => [i, x])` with indices starting at `n`. -/
def idxPairs {α : Type} (n : Nat) : List α → List (Nat × α)
  | [] => []
  | x :: xs => (n, x) :: idxPairs (n + 1) xs

/-- Insertion step of a stable descending sort on the second component: the new
element goes before the first entry whose key is not larger.  Together with
`sortDescBy` this realizes JavaScript's stable `arr.sort((a, b) => b.key - a.key)`. -/
def insertDescBy {α : Type} [LinearOrder α] (x : Nat × α) :
    List (Nat × α) → List (Nat × α)
  | [] => [x]
  | y :: ys => if x.2 < y.2 then y :: insertDescBy x ys else x :: y :: ys

/-- Stable sort by descending second component (insertion sort). -/
def sortDescBy {α : Type} [LinearOrder α] : List (Nat × α) → List (Nat × α)
  | [] => []
  | x :: xs => insertDescBy x (sortDescBy xs)

/-- `prefilterChunks(question, chunks, cap)` from `functions/src/index.ts`
lines 363–391: tokenizes the question; with no usable terms returns the first
`min(cap, N)` indices; otherwise scores every chunk, sorts the `(index, score)`
pairs by descending score (stably), takes the first `min(cap, N)` indices, and
falls back to the first `min(cap, N)` indices when even the top score is zero.
The surrounding `try/catch` is dead in this model: the body is total. -/
def prefilterChunks (question : String) (chunks : List String) (cap : Nat) :
    List Nat :=
  let terms := questionTerms question
  let tk := min cap chunks.length
  if terms.length = 0 then List.range tk
  else
    let scored := (idxPairs 0 chunks).map (fun p => (p.1, chunkScore terms p.2))
    let sorted := sortDescBy scored
    let topIdx := (sorted.take tk).map Prod.fst
    let hasSignal :=
      match sorted.head? with
      | some p => decide (0 < p.2)
      | none => false
    if hasSignal then topIdx else List.range tk

/-- The prefilter as described by the sentence of claim C6, which scores each
chunk "as the number of *distinct* query terms that occur as a substring":
identical to `prefilterChunks` except that the term list is deduplicated
before scoring.  Spec-side definition, written from the claim's words for
comparison against the code-side `prefilterChunks`. -/
def specPrefilterDistinct (question : String) (chunks : List String) (cap : Nat) :
    List Nat :=
  let terms := (questionTerms question).dedup
  let tk := min cap chunks.length
  if terms.length = 0 then List.range tk
  else
    let scored := (idxPairs 0 chunks).map (fun p => (p.1, chunkScore terms p.2))
    let sorted := sortDescBy scored
    let topIdx := (sorted.take tk).map Prod.fst
    let hasSignal :=
      match sorted.head? with
      | some p => decide (0 < p.2)
      | none => false
    if hasSignal then topIdx else List.range tk

-- ### Properties of `idxPairs` and `sortDescBy`

theorem idxPairs_length {α : Type} (n : Nat) (l : List α) :
    (idxPairs n l).length = l.length := by
  induction l generalizing n with
  | nil => rfl
  | cons x xs ih => simp [idxPairs, ih]

theorem idxPairs_mem {α : Type} :
    ∀ (l : List α) (n : Nat) (p : Nat × α), p ∈ idxPairs n l →
      n ≤ p.1 ∧ p.1 < n + l.length ∧ p.2 ∈ l ∧ ∀ (d : α), l.getD (p.1 - n) d = p.2 := by
  intro l
  induction l with
  | nil => intro n p hp; simp [idxPairs] at hp
  | cons x xs ih =>
    intro n p hp
    rcases List.mem_cons.mp hp with h | h
    · subst h
      refine ⟨le_rfl, by simp, List.mem_cons_self x xs, ?_⟩
      intro d
      simp
    · obtain ⟨h1, h2, h3, h4⟩ := ih (n + 1) p h
      refine ⟨by omega, by simp; omega, List.mem_cons_of_mem x h3, ?_⟩
      intro d
      have hidx : p.1 - n = (p.1 - (n + 1)) + 1 := by omega
      rw [hidx]
      simpa using h4 d

theorem idxPairs_mem_of_lt {α : Type} :
    ∀ (l : List α) (n j : Nat), j < l.length → ∀ (d : α),
      (n + j, l.getD j d) ∈ idxPairs n l := by
  intro l
  induction l with
  | nil => intro n j hj; simp at hj
  | cons x xs ih =>
    intro n j hj d
    cases j with
    | zero => simp [idxPairs]
    | succ j =>
      have := ih (n + 1) j (by simpa using hj) d
      apply List.mem_cons_of_mem
      have harith : n + (j + 1) = (n + 1) + j := by omega
      rw [harith]
      simpa using this

theorem idxPairs_pairwise_idx {α : Type} :
    ∀ (l : List α) (n : Nat), (idxPairs n l).Pairwise (fun a b => a.1 < b.1) := by
  intro l
  induction l with
  | nil => intro n; simp [idxPairs]
  | cons x xs ih =>
    intro n
    rw [idxPairs]
    refine List.Pairwise.cons ?_ (ih (n + 1))
    intro p hp
    have h1 := (idxPairs_mem xs (n + 1) p hp).1
    show n < p.1
    omega

theorem insertDescBy_perm {α : Type} [LinearOrder α] (x : Nat × α) :
    ∀ (l : List (Nat × α)), (insertDescBy x l).Perm (x :: l) := by
  intro l
  induction l with
  | nil => simp [insertDescBy]
  | cons y ys ih =>
    rw [insertDescBy]
    by_cases h : x.2 < y.2
    · rw [if_pos h]
      exact List.Perm.trans (List.Perm.cons y ih) (List.Perm.swap x y ys)
    · rw [if_neg h]

theorem sortDescBy_perm {α : Type} [LinearOrder α] :
    ∀ (l : List (Nat × α)), (sortDescBy l).Perm l := by
  intro l
  induction l with
  | nil => simp [sortDescBy]
  | cons x xs ih =>
    rw [sortDescBy]
    exact (insertDescBy_perm x (sortDescBy xs)).trans (List.Perm.cons x ih)

theorem sortDescBy_mem {α : Type} [LinearOrder α] (l : List (Nat × α)) (p : Nat × α) :
    p ∈ sortDescBy l ↔ p ∈ l :=
  (sortDescBy_perm l).mem_iff

theorem sortDescBy_length {α : Type} [LinearOrder α] (l : List (Nat × α)) :
    (sortDescBy l).length = l.length :=
  (sortDescBy_perm l).length_eq

/-- Inserting an element whose index is smaller than every index already present
preserves the sorted-and-stable invariant: keys descend, and equal keys keep
ascending (original) index order. -/
theorem insertDescBy_pairwise {α : Type} [LinearOrder α] (x : Nat × α) :
    ∀ (l : List (Nat × α)),
      l.Pairwise (fun a b => b.2 ≤ a.2 ∧ (a.2 = b.2 → a.1 < b.1)) →
      (∀ y ∈ l, x.1 < y.1) →
      (insertDescBy x l).Pairwise (fun a b => b.2 ≤ a.2 ∧ (a.2 = b.2 → a.1 < b.1)) := by
  intro l
  induction l with
  | nil => intro _ _; simp [insertDescBy]
  | cons y ys ih =>
    intro hp hx
    rw [insertDescBy]
    rcases List.pairwise_cons.mp hp with ⟨hy, hys⟩
    by_cases h : x.2 < y.2
    · rw [if_pos h]
      refine List.pairwise_cons.mpr
        ⟨?_, ih hys (fun z hz => hx z (List.mem_cons_of_mem y hz))⟩
      intro z hz
      rcases List.mem_cons.mp ((insertDescBy_perm x ys).mem_iff.mp hz) with hz1 | hz2
      · subst hz1
        exact ⟨le_of_lt h, fun he => absurd he (ne_of_gt h)⟩
      · exact hy z hz2
    · rw [if_neg h]
      push_neg at h
      refine List.pairwise_cons.mpr ⟨?_, hp⟩
      intro z hz
      rcases List.mem_cons.mp hz with hz1 | hz2
      · subst hz1
        exact ⟨h, fun _ => hx z (List.mem_cons_self z ys)⟩
      · have hyz := hy z hz2
        exact ⟨le_trans hyz.1 h, fun _ => hx z (List.mem_cons_of_mem y hz2)⟩

/-- On input with strictly increasing indices, `sortDescBy` produces a list
whose keys descend and whose equal-key runs keep the original index order. -/
theorem sortDescBy_pairwise {α : Type} [LinearOrder α] :
    ∀ (l : List (Nat × α)), l.Pairwise (fun a b => a.1 < b.1) →
      (sortDescBy l).Pairwise (fun a b => b.2 ≤ a.2 ∧ (a.2 = b.2 → a.1 < b.1)) := by
  intro l
  induction l with
  | nil => intro _; simp [sortDescBy]
  | cons x xs ih =>
    intro hp
    rcases List.pairwise_cons.mp hp with ⟨hx, hxs⟩
    rw [sortDescBy]
    exact insertDescBy_pairwise x (sortDescBy xs) (ih hxs)
      (fun y hy => hx y ((sortDescBy_mem xs y).mp hy))

/-- Characterization of the members of the scored pair list built by
`prefilterChunks`. -/
theorem scoredPairs_mem (terms : List String) (chunks : List String) (q : Nat × Nat)
    (hq : q ∈ (idxPairs 0 chunks).map (fun p => (p.1, chunkScore terms p.2))) :
    q.1 < chunks.length ∧ chunks.getD q.1 "" ∈ chunks ∧
      q.2 = chunkScore terms (chunks.getD q.1 "") := by
  rcases List.mem_map.mp hq with ⟨p, hp, hfp⟩
  obtain ⟨h1, h2, h3, h4⟩ := idxPairs_mem chunks 0 p hp
  have hzero : p.1 - 0 = p.1 := by omega
  rw [hzero] at h4
  have hq1 : q.1 = p.1 := by rw [← hfp]
  have hq2 : q.2 = chunkScore terms p.2 := by rw [← hfp]
  refine ⟨by omega, ?_, ?_⟩
  · rw [hq1, h4 ""]; exact h3
  · rw [hq1, hq2, h4 ""]

/-- Every index below the chunk count appears in the scored pair list with its
score. -/
theorem scoredPairs_mem_of_lt (terms : List String) (chunks : List String) (j : Nat)
    (hj : j < chunks.length) :
    (j, chunkScore terms (chunks.getD j "")) ∈
      (idxPairs 0 chunks).map (fun p => (p.1, chunkScore terms p.2)) := by
  have := idxPairs_mem_of_lt chunks 0 j hj ""
  have hzero : 0 + j = j := by omega
  rw [hzero] at this
  exact List.mem_map.mpr ⟨(j, chunks.getD j ""), this, rfl⟩

/-- C5: whenever the question yields no usable terms, or no query term occurs in
any chunk (all scores zero), `prefilterChunks` returns exactly the indices
`0, 1, ..., min(cap, N) - 1` in original order; and in every case its output has
length at most `cap`. -/
theorem claim_C5_prefilter_fallback (question : String) (chunks : List String)
    (cap : Nat) :
    ((questionTerms question = [] ∨
        ∀ c ∈ chunks, chunkScore (questionTerms question) c = 0) →
      prefilterChunks question chunks cap = List.range (min cap chunks.length)) ∧
    (prefilterChunks question chunks cap).length ≤ cap := by
  constructor
  · intro hz
    simp only [prefilterChunks]
    by_cases ht : (questionTerms question).length = 0
    · rw [if_pos ht]
    · rw [if_neg ht]
      have hall : ∀ c ∈ chunks, chunkScore (questionTerms question) c = 0 := by
        rcases hz with h | h
        · exact absurd (by rw [h]; rfl) ht
        · exact h
      cases hsort : (sortDescBy ((idxPairs 0 chunks).map
          (fun p => (p.1, chunkScore (questionTerms question) p.2)))) with
      | nil =>
        simp
      | cons p rest =>
        have hp : p ∈ sortDescBy ((idxPairs 0 chunks).map
            (fun p => (p.1, chunkScore (questionTerms question) p.2))) := by
          rw [hsort]; exact List.mem_cons_self p rest
        have hps := (sortDescBy_mem _ p).mp hp
        obtain ⟨_, hmem, hscore⟩ := scoredPairs_mem _ chunks p hps
        have hp0 : p.2 = 0 := by rw [hscore]; exact hall _ hmem
        simp [hp0]
  · simp only [prefilterChunks]
    by_cases ht : (questionTerms question).length = 0
    · rw [if_pos ht]
      simp
    · rw [if_neg ht]
      split
      · rw [List.length_map, List.length_take]
        exact le_trans (min_le_left _ _) (min_le_left _ _)
      · simp

/-- Properties of the mapped take of the stable descending sort of the scored
pairs: its length is `min tk N`, its indices are valid, scores descend along it,
ties keep original order, and every index it keeps scores at least as high as
every index it drops. -/
theorem prefilterTop_spec (terms chunks : List String) (tk : Nat) (out : List Nat)
    (hout : out = ((sortDescBy ((idxPairs 0 chunks).map
      (fun p => (p.1, chunkScore terms p.2)))).take tk).map Prod.fst) :
    out.length = min tk chunks.length ∧
    (∀ i ∈ out, i < chunks.length) ∧
    out.Pairwise (fun i j => chunkScore terms (chunks.getD j "") ≤
      chunkScore terms (chunks.getD i "")) ∧
    out.Pairwise (fun i j => chunkScore terms (chunks.getD i "") =
      chunkScore terms (chunks.getD j "") → i < j) ∧
    (∀ i ∈ out, ∀ j, j < chunks.length → j ∉ out →
      chunkScore terms (chunks.getD j "") ≤ chunkScore terms (chunks.getD i "")) := by
  have hscored_pw : ((idxPairs 0 chunks).map
      (fun p => (p.1, chunkScore terms p.2))).Pairwise (fun a b => a.1 < b.1) :=
    List.Pairwise.map _ (fun a b h => h) (idxPairs_pairwise_idx chunks 0)
  have hpw := sortDescBy_pairwise _ hscored_pw
  have htakepw := hpw.sublist (List.take_sublist tk _)
  have hmem_take : ∀ q ∈ (sortDescBy ((idxPairs 0 chunks).map
      (fun p => (p.1, chunkScore terms p.2)))).take tk,
      q.1 < chunks.length ∧ q.2 = chunkScore terms (chunks.getD q.1 "") := by
    intro q hq
    have hq2 := (sortDescBy_mem _ q).mp (List.take_subset tk _ hq)
    obtain ⟨h1, _, h3⟩ := scoredPairs_mem terms chunks q hq2
    exact ⟨h1, h3⟩
  refine ⟨?_, ?_, ?_, ?_, ?_⟩
  · rw [hout, List.length_map, List.length_take, sortDescBy_length,
      List.length_map, idxPairs_length]
  · intro i hi
    rw [hout] at hi
    rcases List.mem_map.mp hi with ⟨q, hq, hq1⟩
    rw [← hq1]
    exact (hmem_take q hq).1
  · rw [hout, List.pairwise_map]
    refine htakepw.imp_of_mem ?_
    intro a b ha hb hr
    rw [(hmem_take a ha).2, (hmem_take b hb).2] at hr
    exact hr.1
  · rw [hout, List.pairwise_map]
    refine htakepw.imp_of_mem ?_
    intro a b ha hb hr
    intro he
    apply hr.2
    rw [(hmem_take a ha).2, (hmem_take b hb).2]
    exact he
  · intro i hi j hjlt hj
    rw [hout] at hi hj
    rcases List.mem_map.mp hi with ⟨qi, hqi, hqi1⟩
    have hqj_scored := scoredPairs_mem_of_lt terms chunks j hjlt
    have hqj_sorted : (j, chunkScore terms (chunks.getD j "")) ∈
        sortDescBy ((idxPairs 0 chunks).map
          (fun p => (p.1, chunkScore terms p.2))) :=
      (sortDescBy_mem _ _).mpr hqj_scored
    have hsplit := List.take_append_drop tk (sortDescBy ((idxPairs 0 chunks).map
      (fun p => (p.1, chunkScore terms p.2))))
    have hqj_drop : (j, chunkScore terms (chunks.getD j "")) ∈
        (sortDescBy ((idxPairs 0 chunks).map
          (fun p => (p.1, chunkScore terms p.2)))).drop tk := by
      rcases (List.mem_append.mp (by rw [hsplit]; exact hqj_sorted)) with h | h
      · exfalso
        apply hj
        exact List.mem_map.mpr ⟨_, h, rfl⟩
      · exact h
    have hpw' := hpw
    rw [← hsplit] at hpw'
    rcases List.pairwise_append.mp hpw' with ⟨_, _, hcross⟩
    have := hcross qi hqi _ hqj_drop
    rw [← hqi1, ← (hmem_take qi hqi).2]
    exact this.1

/-- When the question has usable terms and some chunk scores positively, the
prefilter returns the mapped take of the stable descending sort. -/
theorem prefilterChunks_eq_top (question : String) (chunks : List String) (cap : Nat)
    (hterms : questionTerms question ≠ [])
    (hsig : ∃ c ∈ chunks, 0 < chunkScore (questionTerms question) c) :
    prefilterChunks question chunks cap =
      ((sortDescBy ((idxPairs 0 chunks).map
        (fun p => (p.1, chunkScore (questionTerms question) p.2)))).take
          (min cap chunks.length)).map Prod.fst := by
  have hlen : ¬ (questionTerms question).length = 0 := by
    simpa [List.length_eq_zero] using hterms
  simp only [prefilterChunks]
  rw [if_neg hlen]
  obtain ⟨c0, hc0, hc0pos⟩ := hsig
  obtain ⟨j0, hj0lt, hj0⟩ := List.mem_iff_getElem.mp hc0
  have hscore_j0 : chunkScore (questionTerms question) (chunks.getD j0 "") =
      chunkScore (questionTerms question) c0 := by
    rw [List.getD_eq_getElem chunks "" hj0lt, hj0]
  have hmemj0 := scoredPairs_mem_of_lt (questionTerms question) chunks j0 hj0lt
  have hmem_sorted := (sortDescBy_mem ((idxPairs 0 chunks).map
    (fun p => (p.1, chunkScore (questionTerms question) p.2))) _).mpr hmemj0
  have hpw := sortDescBy_pairwise ((idxPairs 0 chunks).map
      (fun p => (p.1, chunkScore (questionTerms question) p.2)))
    (List.Pairwise.map _ (fun a b h => h) (idxPairs_pairwise_idx chunks 0))
  cases hs : sortDescBy ((idxPairs 0 chunks).map
      (fun p => (p.1, chunkScore (questionTerms question) p.2))) with
  | nil =>
    rw [hs] at hmem_sorted
    simp at hmem_sorted
  | cons p0 rest =>
    rw [hs] at hmem_sorted hpw
    have hp0pos : 0 < p0.2 := by
      rcases List.mem_cons.mp hmem_sorted with h | h
      · rw [← h]
        show 0 < chunkScore (questionTerms question) (chunks.getD j0 "")
        rw [hscore_j0]
        exact hc0pos
      · rcases List.pairwise_cons.mp hpw with ⟨hp0r, _⟩
        have hle := (hp0r _ h).1
        have h2 : 0 < chunkScore (questionTerms question) (chunks.getD j0 "") := by
          rw [hscore_j0]; exact hc0pos
        have hle2 : chunkScore (questionTerms question) (chunks.getD j0 "") ≤ p0.2 := hle
        omega
    simp [hp0pos]

/-- C6 (amended): with at least one usable term and at least one positively
scoring chunk, `prefilterChunks` keeps exactly `min(cap, N)` valid indices,
ordered by descending score where each occurrence of a term in the tokenized
question (terms counted with multiplicity, *not* deduplicated) contributes one
point when it occurs as a substring of the lowercased chunk; ties keep original
index order, and every kept index scores at least as high as every dropped
index. -/
theorem claim_C6_amended (question : String) (chunks : List String) (cap : Nat)
    (hterms : questionTerms question ≠ [])
    (hsig : ∃ c ∈ chunks, 0 < chunkScore (questionTerms question) c) :
    (prefilterChunks question chunks cap).length = min cap chunks.length ∧
    (∀ i ∈ prefilterChunks question chunks cap, i < chunks.length) ∧
    (prefilterChunks question chunks cap).Pairwise (fun i j =>
      chunkScore (questionTerms question) (chunks.getD j "") ≤
        chunkScore (questionTerms question) (chunks.getD i "")) ∧
    (prefilterChunks question chunks cap).Pairwise (fun i j =>
      chunkScore (questionTerms question) (chunks.getD i "") =
        chunkScore (questionTerms question) (chunks.getD j "") → i < j) ∧
    (∀ i ∈ prefilterChunks question chunks cap, ∀ j, j < chunks.length →
      j ∉ prefilterChunks question chunks cap →
      chunkScore (questionTerms question) (chunks.getD j "") ≤
        chunkScore (questionTerms question) (chunks.getD i "")) := by
  have heq := prefilterChunks_eq_top question chunks cap hterms hsig
  obtain ⟨h1, h2, h3, h4, h5⟩ :=
    prefilterTop_spec (questionTerms question) chunks (min cap chunks.length) _ heq
  refine ⟨?_, h2, h3, h4, h5⟩
  rw [h1]
  omega

/-- C6 counterexample: the claim's "number of *distinct* query terms" scoring
disagrees with the code.  For the question `"foo foo bar"` (the term `foo`
appears twice in the term list) and chunks `["bar", "foo"]`, the code scores
chunk 1 twice (once per `foo` occurrence) and returns `[1, 0]`, while
distinct-term scoring ties both chunks at 1 and the stable sort returns
`[0, 1]`. -/
theorem claim_C6_counterexample :
    prefilterChunks "foo foo bar" ["bar", "foo"] 2 = [1, 0] ∧
    specPrefilterDistinct "foo foo bar" ["bar", "foo"] 2 = [0, 1] ∧
    ([1, 0] : List Nat) ≠ [0, 1] :=
  ⟨by decide, by decide, by decide⟩

/-- C6 witness: a question with two distinct usable terms and a positively
scoring chunk. -/
theorem claim_C6_witness :
    (prefilterChunks "foo bar" ["bar", "foo"] 2).length = min 2 2 :=
  (claim_C6_amended "foo bar" ["bar", "foo"] 2 (by decide)
    ⟨"bar", by decide, by decide⟩).1

/-- C5 witness: the question `"ab"` has no usable term (length ≤ 2), so the
prefilter is the identity on the first `min(cap, N)` indices. -/
theorem claim_C5_witness :
    prefilterChunks "ab" ["x"] 5 = List.range (min 5 1) :=
  (claim_C5_prefilter_fallback "ab" ["x"] 5).1 (Or.inl (by decide))

-- ### Cosine similarity (`functions/src/index.ts`, lines 399–415)

/-- The accumulation loop of `cosineSimilarity`: sum of pairwise products
(`dotProduct`); applied to a vector with itself it is the squared norm
(`normA`, `normB`). -/
def dotL : List ℝ → List ℝ → ℝ
  | a :: as, b :: bs => a * b + dotL as bs
  | _, _ => 0

/-- `cosineSimilarity(vecA, vecB)` from `functions/src/index.ts` lines 399–415.
`Option` models a JavaScript `undefined`/`null` argument (the `!vecA || !vecB`
guard); the result is `0` on absent vectors, mismatched lengths, or zero
magnitude, and `dot / (√normA * √normB)` otherwise. -/
noncomputable def cosineSimilarity (vecA vecB : Option (List ℝ)) : ℝ :=
  match vecA, vecB with
  | some a, some b =>
    if a.length ≠ b.length then 0
    else
      if dotL a a = 0 ∨ dotL b b = 0 then 0
      else dotL a b / (Real.sqrt (dotL a a) * Real.sqrt (dotL b b))
  | _, _ => 0

theorem dotL_comm : ∀ (a b : List ℝ), dotL a b = dotL b a := by
  intro a
  induction a with
  | nil => intro b; cases b <;> rfl
  | cons x xs ih =>
    intro b
    cases b with
    | nil => rfl
    | cons y ys => rw [dotL, dotL, ih ys, mul_comm]

theorem dotL_self_nonneg : ∀ (a : List ℝ), 0 ≤ dotL a a := by
  intro a
  induction a with
  | nil => exact le_refl 0
  | cons x xs ih =>
    rw [dotL]
    exact add_nonneg (mul_self_nonneg x) ih

theorem dotL_self_pos : ∀ (a : List ℝ), (∃ x ∈ a, x ≠ 0) → 0 < dotL a a := by
  intro a
  induction a with
  | nil => intro h; simp at h
  | cons x xs ih =>
    intro h
    rw [dotL]
    rcases h with ⟨y, hy, hy0⟩
    rcases List.mem_cons.mp hy with h | h
    · subst h
      exact add_pos_of_pos_of_nonneg (mul_self_pos.mpr hy0) (dotL_self_nonneg xs)
    · exact add_pos_of_nonneg_of_pos (mul_self_nonneg x) (ih ⟨y, h, hy0⟩)

/-- C2: cosine similarity is symmetric; `sim(a, a) = 1` for every vector with a
nonzero entry; and the result is `0` whenever an argument is absent, the lengths
differ, or either vector has zero magnitude (squared norm zero). -/
theorem claim_C2_cosine :
    (∀ (vecA vecB : Option (List ℝ)),
      cosineSimilarity vecA vecB = cosineSimilarity vecB vecA) ∧
    (∀ (a : List ℝ), (∃ x ∈ a, x ≠ 0) →
      cosineSimilarity (some a) (some a) = 1) ∧
    (∀ (vecB : Option (List ℝ)), cosineSimilarity none vecB = 0) ∧
    (∀ (vecA : Option (List ℝ)), cosineSimilarity vecA none = 0) ∧
    (∀ (a b : List ℝ), a.length ≠ b.length →
      cosineSimilarity (some a) (some b) = 0) ∧
    (∀ (a b : List ℝ), dotL a a = 0 ∨ dotL b b = 0 →
      cosineSimilarity (some a) (some b) = 0) := by
  refine ⟨?_, ?_, ?_, ?_, ?_, ?_⟩
  · intro vecA vecB
    match vecA, vecB with
    | none, none => rfl
    | none, some b => rfl
    | some a, none => rfl
    | some a, some b =>
      rw [cosineSimilarity, cosineSimilarity]
      by_cases hlen : a.length = b.length
      · have h1 : ¬(a.length ≠ b.length) := by omega
        have h2 : ¬(b.length ≠ a.length) := by omega
        rw [if_neg h1, if_neg h2]
        by_cases hz : dotL a a = 0 ∨ dotL b b = 0
        · rw [if_pos hz, if_pos (Or.symm hz)]
        · rw [if_neg hz, if_neg (fun h => hz (Or.symm h))]
          rw [dotL_comm a b, mul_comm]
      · have h2 : b.length ≠ a.length := fun h => hlen h.symm
        rw [if_pos hlen, if_pos h2]
  · intro a ha
    have hpos := dotL_self_pos a ha
    rw [cosineSimilarity]
    rw [if_neg (by omega)]
    rw [if_neg (by push_neg; exact ⟨ne_of_gt hpos, ne_of_gt hpos⟩)]
    rw [Real.mul_self_sqrt (le_of_lt hpos)]
    exact div_self (ne_of_gt hpos)
  · intro vecB
    cases vecB <;> rfl
  · intro vecA
    cases vecA <;> rfl
  · intro a b h
    rw [cosineSimilarity, if_pos h]
  · intro a b h
    rw [cosineSimilarity]
    by_cases hlen : a.length ≠ b.length
    · rw [if_pos hlen]
    · rw [if_neg hlen, if_pos h]

/-- C2 witness: the one-dimensional vector `[2]` has similarity 1 with itself. -/
theorem claim_C2_witness : cosineSimilarity (some [(2 : ℝ)]) (some [(2 : ℝ)]) = 1 :=
  claim_C2_cosine.2.1 [(2 : ℝ)] ⟨2, by simp, by norm_num⟩

-- ### Dynamic-K selection (`functions/src/index.ts`, lines 168–175)

/-- `Math.max(...sims)` for the nonempty score lists occurring in the pipeline
(`sims` is nonempty once chunks have loaded).  JavaScript's value on an empty
argument list is `-Infinity`; that unreachable case is modelled as `0`. -/
noncomputable def listMax : List ℝ → ℝ
  | [] => 0
  | x :: xs => xs.foldl max x

/-- `const k = maxSim >= 0.8 ? 2 : (maxSim < 0.6 ? 6 : 4)` (line 170). -/
noncomputable def dynamicK (maxSim : ℝ) : Nat :=
  if maxSim ≥ 0.8 then 2 else if maxSim < 0.6 then 6 else 4

/-- `sims.map((s, i) => ({s, i})).sort((a, b) => b.s - a.s).slice(0, k).map((x) => x.i)`
(lines 171–174): the indices of the `k` largest similarities, stable descending. -/
noncomputable def topIdxOf (sims : List ℝ) (k : Nat) : List Nat :=
  ((sortDescBy (idxPairs 0 sims)).take k).map Prod.fst

/-- Members of the take of the sorted similarity pairs carry valid indices and
their own similarity value. -/
theorem topIdxOf_pair_mem (sims : List ℝ) (k : Nat) (q : Nat × ℝ)
    (hq : q ∈ (sortDescBy (idxPairs 0 sims)).take k) :
    q.1 < sims.length ∧ sims.getD q.1 0 = q.2 := by
  have hq2 := (sortDescBy_mem (idxPairs 0 sims) q).mp (List.take_subset k _ hq)
  obtain ⟨h1, h2, h3, h4⟩ := idxPairs_mem sims 0 q hq2
  have hzero : q.1 - 0 = q.1 := by omega
  rw [hzero] at h4
  exact ⟨by omega, h4 0⟩

/-- C1: for every non-empty similarity list, K is determined by the maximum
score (`maxSim ≥ 0.8 → K = 2`, `maxSim < 0.6 → K = 6`, otherwise `K = 4`), and
the selection has exactly `min(K, candidate count)` valid indices ordered by
descending similarity. -/
theorem claim_C1_dynamic_topk (sims : List ℝ) (h : sims ≠ []) :
    (0.8 ≤ listMax sims → dynamicK (listMax sims) = 2) ∧
    (listMax sims < 0.6 → dynamicK (listMax sims) = 6) ∧
    (0.6 ≤ listMax sims → listMax sims < 0.8 → dynamicK (listMax sims) = 4) ∧
    (topIdxOf sims (dynamicK (listMax sims))).length =
      min (dynamicK (listMax sims)) sims.length ∧
    (∀ i ∈ topIdxOf sims (dynamicK (listMax sims)), i < sims.length) ∧
    (topIdxOf sims (dynamicK (listMax sims))).Pairwise
      (fun i j => sims.getD j 0 ≤ sims.getD i 0) := by
  refine ⟨?_, ?_, ?_, ?_, ?_, ?_⟩
  · intro hm
    rw [dynamicK, if_pos hm]
  · intro hm
    rw [dynamicK, if_neg (by push_neg; linarith), if_pos hm]
  · intro hm1 hm2
    rw [dynamicK, if_neg (by push_neg; linarith), if_neg (by push_neg; linarith)]
  · rw [topIdxOf, List.length_map, List.length_take, sortDescBy_length,
      idxPairs_length]
  · intro i hi
    rw [topIdxOf] at hi
    rcases List.mem_map.mp hi with ⟨q, hq, hq1⟩
    rw [← hq1]
    exact (topIdxOf_pair_mem sims _ q hq).1
  · rw [topIdxOf, List.pairwise_map]
    have hpw := sortDescBy_pairwise (idxPairs 0 sims) (idxPairs_pairwise_idx sims 0)
    refine (hpw.sublist (List.take_sublist _ _)).imp_of_mem ?_
    intro a b ha hb hr
    rw [(topIdxOf_pair_mem sims _ a ha).2, (topIdxOf_pair_mem sims _ b hb).2]
    exact hr.1

/-- C1 witness: the singleton similarity list `[1]`. -/
theorem claim_C1_witness :
    (topIdxOf [(1 : ℝ)] (dynamicK (listMax [(1 : ℝ)]))).length =
      min (dynamicK (listMax [(1 : ℝ)])) 1 :=
  (claim_C1_dynamic_topk [(1 : ℝ)] (by simp)).2.2.2.1

-- ### The retrieval orchestration of `askQuestion` (`functions/src/index.ts`)

/-- A chunk record as used by `askQuestion` (lines 68–75): Firestore document
id, `index`, `text`, and optional stored `embedding`. -/
structure Chunk where
  id : String
  index : Nat
  text : String
  embedding : Option (List ℝ)

/-- The default used for (unreachable) out-of-bounds chunk indexing. -/
def defaultChunk : Chunk :=
  { id := "", index := 0, text := "", embedding := none }

/-- The ephemeral fallback chunks synthesized from `extractedText`
(lines 85–86): `chunkTextByWords(documentText, 900, 120)` with ids
`fallback_<i>`, indices `i`, and no stored embedding. -/
def fallbackChunks (text : String) : List Chunk :=
  (idxPairs 0 (chunkTextByWords text 900 120)).map
    (fun p => { id := "fallback_" ++ toString p.1, index := p.1, text := p.2,
                embedding := none })

/-- Steps 1–2 of `askQuestion` (lines 66–88): use the stored chunk records when
any exist; otherwise chunk the raw `extractedText` on the fly, failing with the
`failed-precondition` ("document not ready") error when the text is absent,
empty, or whitespace-only.  `storedChunks` stands for the decoded,
index-ordered `chunks` sub-collection; `extractedText` for the optional
document field (`undefined`/`null`/missing are `none`, and `|| ""` is `getD`). -/
def loadChunks (storedChunks : List Chunk) (extractedText : Option String) :
    Except String (List Chunk) :=
  if storedChunks.isEmpty then
    let documentText := extractedText.getD ""
    if documentText = "" ∨ jsTrim documentText = "" then
      .error "failed-precondition: Document has no extracted text yet."
    else .ok (fallbackChunks documentText)
  else .ok storedChunks

/-- The embedding-resolution loop of `askQuestion` (lines 134–155): a stored
vector is reused when its length matches the question embedding's
dimensionality; otherwise the chunk text is re-embedded through the oracle
`embedDoc` (the `RETRIEVAL_DOCUMENT`-tagged request) and the fresh vector is
enqueued for backfill unless the chunk id starts with `fallback_`.  Returns
the pair `(filteredComputed, toBackfill)` in loop order. -/
def resolveEmbeddings (filtered : List Chunk) (targetDim : Nat)
    (embedDoc : String → List ℝ) : List (List ℝ) × List (String × List ℝ) :=
  match filtered with
  | [] => ([], [])
  | c :: cs =>
    let rest := resolveEmbeddings cs targetDim embedDoc
    match c.embedding with
    | some known =>
      if known.length = targetDim then (known :: rest.1, rest.2)
      else
        let vals := embedDoc c.text
        (vals :: rest.1,
          if jsStartsWith c.id "fallback_" then rest.2 else (c.id, vals) :: rest.2)
    | none =>
      let vals := embedDoc c.text
      (vals :: rest.1,
        if jsStartsWith c.id "fallback_" then rest.2 else (c.id, vals) :: rest.2)

/-- The caller-visible, data-dependent part of `askQuestion`'s return value
(lines 188–213): the citation list (chunk id with a 200-character snippet,
line 189) and `meta.topChunkIds` (line 211).  The generated `answer` and
`followUps` and the wall-clock `timeMs` are external-model effects outside this
embedding; `flaggedClauses` is a pure function of the same `topChunks`. -/
structure RetrieveResult where
  citations : List (String × String)
  topChunkIds : List String

/-- The retrieval pipeline of `askQuestion` (lines 54–213) as a pure function
of its inputs: the decoded stored chunks and `extractedText` (steps 1–2), the
question, the question embedding `qEmbed` (the fresh `RETRIEVAL_QUERY` request
of lines 127–132), an embedding oracle `embedDoc` for chunk texts, and whether
the backfill batch commit succeeds.  The result is returned together with the
embeddings actually persisted by the backfill: the `try/catch` around
`batch.commit()` (lines 156–167) swallows a failure, so a failed commit
persists nothing and the retrieval continues unchanged.  The discarded
`findRelevantChunks` call of line 124 has no effect on the result and is
omitted. -/
noncomputable def askQuestionCore (storedChunks : List Chunk)
    (extractedText : Option String) (question : String) (qEmbed : List ℝ)
    (embedDoc : String → List ℝ) (backfillOk : Bool) :
    Except String (RetrieveResult × List (String × List ℝ)) :=
  match loadChunks storedChunks extractedText with
  | .error e => .error e
  | .ok chunks =>
    let prefilteredIdx := prefilterChunks question (chunks.map Chunk.text) 60
    let filtered := prefilteredIdx.map (fun i => chunks.getD i defaultChunk)
    let targetDim := qEmbed.length
    let resolved := resolveEmbeddings filtered targetDim embedDoc
    let persisted := if backfillOk then resolved.2 else []
    let sims := resolved.1.map (fun e => cosineSimilarity (some qEmbed) (some e))
    let k := dynamicK (listMax sims)
    let topChunks := (topIdxOf sims k).map (fun i => filtered.getD i defaultChunk)
    .ok ({ citations := topChunks.map (fun c => (c.id, jsSlice c.text 200)),
           topChunkIds := topChunks.map Chunk.id }, persisted)

theorem jsTrim_ne_imp_exists (s : String) (h : jsTrim s ≠ "") :
    ∃ c ∈ s.data, isWS c = false := by
  by_contra hall
  push_neg at hall
  apply h
  have hdrop : s.data.dropWhile isWS = [] := by
    rw [List.dropWhile_eq_nil_iff]
    intro x hx
    have := hall x hx
    simpa using this
  rw [jsTrim, String.ext_iff]
  show trimChars s.data = "".data
  rw [trimChars, hdrop]
  rfl

theorem splitWords_ne_nil (l : List Char) (h : ∃ c ∈ l, isWS c = false) :
    splitWords l ≠ [] := by
  induction l with
  | nil => simp at h
  | cons c cs ih =>
    unfold splitWords at ih ⊢
    rw [splitRuns_cons]
    rcases h with ⟨d, hd, hdws⟩
    by_cases hk : isWS c
    · rw [if_neg (by simp [hk])]
      apply ih
      refine ⟨d, ?_, hdws⟩
      rcases List.mem_cons.mp hd with h | h
      · subst h; rw [hk] at hdws; cases hdws
      · exact h
    · rw [if_pos (by simp [hk])]
      simp

/-- A text that is JavaScript-truthy after `trim()` produces at least one chunk
(for a positive word target). -/
theorem chunkTextByWords_ne_nil (text : String) (targetWords overlapWords : Nat)
    (ht : 1 ≤ targetWords) (h : jsTrim text ≠ "") :
    chunkTextByWords text targetWords overlapWords ≠ [] := by
  have htext : text ≠ "" := by
    intro he
    rw [he] at h
    exact h rfl
  have hwords : splitWords text.data ≠ [] :=
    splitWords_ne_nil text.data (jsTrim_ne_imp_exists text h)
  unfold chunkTextByWords
  rw [if_neg htext, if_neg (by simp [hwords])]
  exact chunkLoop_ne_nil (splitWords text.data) targetWords overlapWords 0 ht
    (List.length_pos.mpr hwords)
    (fun w hw => splitWords_mem text.data w hw)

theorem fallbackChunks_length (text : String) :
    (fallbackChunks text).length = (chunkTextByWords text 900 120).length := by
  rw [fallbackChunks, List.length_map, idxPairs_length]

theorem idxPairs_map_fst {α : Type} :
    ∀ (l : List α) (n : Nat), (idxPairs n l).map Prod.fst = List.range' n l.length := by
  intro l
  induction l with
  | nil => intro n; rfl
  | cons x xs ih =>
    intro n
    rw [idxPairs, List.map_cons, ih (n + 1), List.length_cons, List.range'_succ]

/-- The ids of the fallback chunks are `fallback_0, fallback_1, ...` in order. -/
theorem fallbackChunks_ids (text : String) :
    (fallbackChunks text).map Chunk.id =
      (List.range (chunkTextByWords text 900 120).length).map
        (fun i => "fallback_" ++ toString i) := by
  rw [fallbackChunks, List.map_map, List.range_eq_range' _]
  rw [← idxPairs_map_fst (chunkTextByWords text 900 120) 0, List.map_map]
  rfl

/-- C7: with no stored chunk records, the document's raw extracted text is
chunked on the fly into ephemeral chunks with ids `fallback_<i>`; and the load
step fails with the "document not ready" (`failed-precondition`) error if and
only if there are no stored chunk records and the extracted text is absent,
empty, or whitespace-only. -/
theorem claim_C7_fallback_not_ready (storedChunks : List Chunk)
    (extractedText : Option String) :
    (storedChunks = [] → jsTrim (extractedText.getD "") ≠ "" →
      loadChunks storedChunks extractedText =
        .ok (fallbackChunks (extractedText.getD ""))) ∧
    ((∃ e, loadChunks storedChunks extractedText = .error e) ↔
      (storedChunks = [] ∧ jsTrim (extractedText.getD "") = "")) ∧
    (∀ (text : String), (fallbackChunks text).map Chunk.id =
      (List.range (chunkTextByWords text 900 120).length).map
        (fun i => "fallback_" ++ toString i)) := by
  refine ⟨?_, ?_, fallbackChunks_ids⟩
  · intro hnil htrim
    rw [loadChunks, if_pos (by rw [hnil]; rfl)]
    rw [if_neg ?_]
    push_neg
    refine ⟨?_, htrim⟩
    intro he
    rw [he] at htrim
    exact htrim rfl
  · constructor
    · rintro ⟨e, he⟩
      rw [loadChunks] at he
      by_cases hempty : storedChunks.isEmpty
      · rw [if_pos hempty] at he
        refine ⟨List.isEmpty_iff.mp hempty, ?_⟩
        by_cases hcond : extractedText.getD "" = "" ∨ jsTrim (extractedText.getD "") = ""
        · rcases hcond with h | h
          · rw [h]; rfl
          · exact h
        · rw [if_neg hcond] at he
          cases he
      · rw [if_neg hempty] at he
        cases he
    · rintro ⟨hnil, htrim⟩
      rw [loadChunks, if_pos (by rw [hnil]; rfl), if_pos (Or.inr htrim)]
      exact ⟨_, rfl⟩

/-- C7 witness: no stored chunks and a usable one-word text load as one
fallback chunk; no stored chunks and a whitespace-only text fail. -/
theorem claim_C7_witness :
    loadChunks [] (some "hello") = .ok (fallbackChunks "hello") ∧
    ((∃ e, loadChunks [] (some " ") = .error e) ↔ True) := by
  constructor
  · exact (claim_C7_fallback_not_ready [] (some "hello")).1 rfl (by decide)
  · rw [(claim_C7_fallback_not_ready [] (some " ")).2.1]
    simp
    decide

/-- C8: embedding backfill is a best-effort side effect.  The retrieval result
is identical whether or not the backfill commit succeeds (the `catch` swallows
the failure); a failed commit persists nothing; and a vector is enqueued for
backfill only for chunks whose id does not start with `fallback_` — ephemeral
fallback chunks are never backfilled. -/
theorem claim_C8_backfill_best_effort :
    (∀ (storedChunks : List Chunk) (extractedText : Option String)
        (question : String) (qEmbed : List ℝ) (embedDoc : String → List ℝ),
      Except.map Prod.fst
          (askQuestionCore storedChunks extractedText question qEmbed embedDoc true) =
        Except.map Prod.fst
          (askQuestionCore storedChunks extractedText question qEmbed embedDoc false)) ∧
    (∀ (storedChunks : List Chunk) (extractedText : Option String)
        (question : String) (qEmbed : List ℝ) (embedDoc : String → List ℝ)
        (res : RetrieveResult) (persisted : List (String × List ℝ)),
      askQuestionCore storedChunks extractedText question qEmbed embedDoc false =
        .ok (res, persisted) → persisted = []) ∧
    (∀ (filtered : List Chunk) (targetDim : Nat) (embedDoc : String → List ℝ),
      ∀ p ∈ (resolveEmbeddings filtered targetDim embedDoc).2,
        jsStartsWith p.1 "fallback_" = false ∧ p.1 ∈ filtered.map Chunk.id) := by
  refine ⟨?_, ?_, ?_⟩
  · intro storedChunks extractedText question qEmbed embedDoc
    cases hload : loadChunks storedChunks extractedText with
    | error e => simp only [askQuestionCore, hload, Except.map]
    | ok chunks => simp only [askQuestionCore, hload, Except.map]
  · intro storedChunks extractedText question qEmbed embedDoc res persisted h
    cases hload : loadChunks storedChunks extractedText with
    | error e =>
      rw [askQuestionCore] at h
      rw [hload] at h
      cases h
    | ok chunks =>
      rw [askQuestionCore] at h
      rw [hload] at h
      simp only [if_neg (Bool.false_ne_true)] at h
      rw [Except.ok.injEq, Prod.mk.injEq] at h
      exact h.2.symm
  · intro filtered targetDim embedDoc
    induction filtered with
    | nil => intro p hp; simp [resolveEmbeddings] at hp
    | cons c cs ih =>
      intro p hp
      rw [resolveEmbeddings] at hp
      rcases hemb : c.embedding with _ | known
      · rw [hemb] at hp
        simp only at hp
        by_cases hsw : jsStartsWith c.id "fallback_"
        · rw [if_pos hsw] at hp
          obtain ⟨h1, h2⟩ := ih p hp
          exact ⟨h1, by simp [h2]⟩
        · rw [if_neg hsw] at hp
          rcases List.mem_cons.mp hp with h | h
          · subst h
            exact ⟨by simpa using hsw, by simp⟩
          · obtain ⟨h1, h2⟩ := ih p h
            exact ⟨h1, by simp [h2]⟩
      · rw [hemb] at hp
        simp only at hp
        by_cases hdim : known.length = targetDim
        · rw [if_pos hdim] at hp
          obtain ⟨h1, h2⟩ := ih p hp
          exact ⟨h1, by simp [h2]⟩
        · rw [if_neg hdim] at hp
          by_cases hsw : jsStartsWith c.id "fallback_"
          · rw [if_pos hsw] at hp
            obtain ⟨h1, h2⟩ := ih p hp
            exact ⟨h1, by simp [h2]⟩
          · rw [if_neg hsw] at hp
            rcases List.mem_cons.mp hp with h | h
            · subst h
              exact ⟨by simpa using hsw, by simp⟩
            · obtain ⟨h1, h2⟩ := ih p h
              exact ⟨h1, by simp [h2]⟩

/-- C8 witness: one fallback chunk and one stored chunk, both lacking vectors;
only the stored chunk is enqueued. -/
theorem claim_C8_witness :
    jsStartsWith
      ("c1", [(1 : ℝ)]).1 "fallback_" = false ∧
    ("c1", [(1 : ℝ)]).1 ∈
      ([{ id := "fallback_0", index := 0, text := "x", embedding := none },
        { id := "c1", index := 1, text := "y", embedding := none }] :
          List Chunk).map Chunk.id :=
  claim_C8_backfill_best_effort.2.2
    [{ id := "fallback_0", index := 0, text := "x", embedding := none },
     { id := "c1", index := 1, text := "y", embedding := none }]
    1 (fun _ => [(1 : ℝ)]) ("c1", [(1 : ℝ)])
    (by
      show ("c1", [(1 : ℝ)]) ∈ (resolveEmbeddings _ 1 _).2
      rw [resolveEmbeddings]
      simp only [resolveEmbeddings]
      norm_num [jsStartsWith, leadsWith])

/-- The prefilter always returns exactly `min(cap, N)` indices. -/
theorem prefilterChunks_length (question : String) (chunks : List String)
    (cap : Nat) :
    (prefilterChunks question chunks cap).length = min cap chunks.length := by
  simp only [prefilterChunks]
  by_cases ht : (questionTerms question).length = 0
  · rw [if_pos ht, List.length_range]
  · rw [if_neg ht]
    split
    · rw [List.length_map, List.length_take, sortDescBy_length, List.length_map,
        idxPairs_length]
      omega
    · rw [List.length_range]


theorem resolveEmbeddings_fst_length (filtered : List Chunk) (targetDim : Nat)
    (embedDoc : String → List ℝ) :
    (resolveEmbeddings filtered targetDim embedDoc).1.length = filtered.length := by
  induction filtered with
  | nil => rfl
  | cons c cs ih =>
    cases hemb : c.embedding with
    | none =>
      simp only [resolveEmbeddings, hemb]
      simpa using ih
    | some known =>
      simp only [resolveEmbeddings, hemb]
      by_cases hdim : known.length = targetDim
      · rw [if_pos hdim]
        simpa using ih
      · rw [if_neg hdim]
        simpa using ih

theorem topIdxOf_length (sims : List ℝ) (k : Nat) :
    (topIdxOf sims k).length = min k sims.length := by
  rw [topIdxOf, List.length_map, List.length_take, sortDescBy_length,
    idxPairs_length]

theorem dynamicK_cases (m : ℝ) :
    dynamicK m = 2 ∨ dynamicK m = 4 ∨ dynamicK m = 6 := by
  rw [dynamicK]
  split
  · exact Or.inl rfl
  · split
    · exact Or.inr (Or.inr rfl)
    · exact Or.inr (Or.inl rfl)

/-- A successful chunk load yields a non-empty chunk list. -/
theorem loadChunks_ok_ne_nil (storedChunks : List Chunk)
    (extractedText : Option String) (chunks : List Chunk)
    (h : loadChunks storedChunks extractedText = .ok chunks) : chunks ≠ [] := by
  rw [loadChunks] at h
  by_cases hempty : storedChunks.isEmpty
  · rw [if_pos hempty] at h
    by_cases hcond : extractedText.getD "" = "" ∨ jsTrim (extractedText.getD "") = ""
    · rw [if_pos hcond] at h
      cases h
    · rw [if_neg hcond] at h
      rw [Except.ok.injEq] at h
      push_neg at hcond
      intro hnil
      have hlen := congrArg List.length (h.trans hnil)
      rw [fallbackChunks_length] at hlen
      exact chunkTextByWords_ne_nil _ 900 120 (by norm_num) hcond.2
        (List.length_eq_zero.mp hlen)
  · rw [if_neg hempty] at h
    rw [Except.ok.injEq] at h
    rw [← h]
    exact fun hnil => hempty (by rw [hnil]; rfl)

/-- C10: every successful retrieval returns a non-empty evidence set of at most
six chunks: the computed K is always one of {2, 4, 6}, and `citations` and
`meta.topChunkIds` carry the same number of entries, between 1 and 6. -/
theorem claim_C10_evidence_bounds (storedChunks : List Chunk)
    (extractedText : Option String) (question : String) (qEmbed : List ℝ)
    (embedDoc : String → List ℝ) (backfillOk : Bool) (res : RetrieveResult)
    (persisted : List (String × List ℝ))
    (h : askQuestionCore storedChunks extractedText question qEmbed embedDoc
      backfillOk = .ok (res, persisted)) :
    1 ≤ res.topChunkIds.length ∧ res.topChunkIds.length ≤ 6 ∧
    res.citations.length = res.topChunkIds.length ∧
    (∀ (m : ℝ), dynamicK m = 2 ∨ dynamicK m = 4 ∨ dynamicK m = 6) := by
  cases hload : loadChunks storedChunks extractedText with
  | error e =>
    rw [askQuestionCore, hload] at h
    cases h
  | ok chunks =>
    rw [askQuestionCore, hload] at h
    rw [Except.ok.injEq, Prod.mk.injEq] at h
    obtain ⟨hres_eq, _⟩ := h
    have hchunks : chunks ≠ [] :=
      loadChunks_ok_ne_nil storedChunks extractedText chunks hload
    have hNpos : 0 < chunks.length := List.length_pos.mpr hchunks
    have hpre : (prefilterChunks question (chunks.map Chunk.text) 60).length =
        min 60 chunks.length := by
      rw [prefilterChunks_length, List.length_map]
    have hids_len : res.topChunkIds.length =
        min (dynamicK (listMax ((resolveEmbeddings
            ((prefilterChunks question (chunks.map Chunk.text) 60).map
              (fun i => chunks.getD i defaultChunk)) qEmbed.length embedDoc).1.map
                (fun e => cosineSimilarity (some qEmbed) (some e)))))
          (prefilterChunks question (chunks.map Chunk.text) 60).length := by
      rw [← hres_eq]
      simp only [List.length_map]
      rw [topIdxOf_length]
      simp only [List.length_map]
      rw [resolveEmbeddings_fst_length]
      simp only [List.length_map]
    have hcit_len : res.citations.length = res.topChunkIds.length := by
      rw [← hres_eq]
      simp only [List.length_map]
    have hk := dynamicK_cases (listMax ((resolveEmbeddings
      ((prefilterChunks question (chunks.map Chunk.text) 60).map
        (fun i => chunks.getD i defaultChunk)) qEmbed.length embedDoc).1.map
          (fun e => cosineSimilarity (some qEmbed) (some e))))
    refine ⟨?_, ?_, hcit_len, dynamicK_cases⟩
    · rw [hids_len]
      rcases hk with hk | hk | hk <;> rw [hk] <;> omega
    · rw [hids_len]
      rcases hk with hk | hk | hk <;> rw [hk] <;> omega

/-- C10 witness: a document with one stored chunk that already has a matching
1-dimensional vector, queried with an empty question. -/
theorem claim_C10_witness :
    1 ≤ (["c0"] : List String).length ∧ (["c0"] : List String).length ≤ 6 ∧
    ([("c0", "t")] : List (String × String)).length = (["c0"] : List String).length ∧
    (∀ (m : ℝ), dynamicK m = 2 ∨ dynamicK m = 4 ∨ dynamicK m = 6) := by
  refine claim_C10_evidence_bounds
    [{ id := "c0", index := 0, text := "t", embedding := some [(1 : ℝ)] }] none ""
    [(1 : ℝ)] (fun _ => [(1 : ℝ)]) true
    { citations := [("c0", "t")], topChunkIds := ["c0"] } [] ?_
  have hcos : cosineSimilarity (some [(1 : ℝ)]) (some [(1 : ℝ)]) = 1 := by
    rw [cosineSimilarity]
    rw [if_neg (by norm_num)]
    rw [if_neg (by norm_num [dotL])]
    norm_num [dotL, Real.sqrt_one]
  have hload : loadChunks
      [{ id := "c0", index := 0, text := "t", embedding := some [(1 : ℝ)] }] none =
      .ok [{ id := "c0", index := 0, text := "t", embedding := some [(1 : ℝ)] }] := rfl
  have hpre : prefilterChunks "" ["t"] 60 = [0] := by decide
  simp only [askQuestionCore, hload]
  simp only [List.map_cons, List.map_nil, hpre, List.getD_cons_zero]
  simp only [resolveEmbeddings, List.length_cons, List.length_nil]
  norm_num
  simp only [hcos]
  have hmax : listMax [(1 : ℝ)] = 1 := rfl
  rw [hmax]
  have hk : dynamicK 1 = 2 := by
    rw [dynamicK, if_pos (by norm_num)]
  rw [hk]
  have htop : topIdxOf [(1 : ℝ)] 2 = [0] := rfl
  rw [htop]
  simp only [List.map_cons, List.map_nil, List.getD_cons_zero]
  exact ⟨rfl, rfl⟩
